import Mathlib

/-!
Verification development for the TouchFS generation-trigger and
context-assembly core: a shallow embedding of the Virtual Node Store,
Context Collector, Generator Registry and Dispatch, Cache Layer and
Trigger Engine, together with theorems settling the behavioural claims
about them.

The repository ships the component contracts in its design documents
(docs/architecture.md, touchfs/content/plugins/README.md) and embeds the
code of DefaultGenerator.can_handle and ModelPlugin.generate as snippets
in the plugin guides; those snippets are embedded here verbatim in Lean
form, and the remaining components are modelled from the specification
text.
-/

namespace TouchFS

/-- A file node of the Virtual Node Store: its content (the empty string
standing for `Empty`, anything else for `Materialized`) and its extended
attributes (`None` when the node carries no xattr table, mirroring the
Python `node.xattrs is None` case). -/
structure FileNode where
  content : String
  xattrs : Option (List (String × String))
deriving DecidableEq, Repr

/-- Look an extended attribute up on a node, `none` when the table is
absent or the key missing (the Python `node.xattrs.get(key)`). -/
def xattrGet (n : FileNode) (k : String) : Option String :=
  match n.xattrs with
  | none => none
  | some xs => (xs.find? (fun kv => kv.1 == k)).map (fun kv => kv.2)

/-- Whether the node carries the `generate_content` generation marker
extended attribute. -/
def marked (n : FileNode) : Bool :=
  (xattrGet n "generate_content").isSome

/-- Modelled from the spec: the generation-trigger eligibility rule of
the Trigger Engine (docs/architecture.md, Generation Trigger): content
is generated only when the file is marked with the `generate_content`
xattr AND the file is empty (0 bytes).  The trigger-engine code itself
is not among the shipped sources. -/
def eligible (n : FileNode) : Bool :=
  marked n && (n.content == "")

/-- The Virtual Node Store: an association list from absolute path to
node (the path is the unique key). -/
def Store := List (String × FileNode)

/-- Look a path up in the store (first entry whose key matches). -/
def lookupNode (fs : Store) (p : String) : Option FileNode :=
  (List.find? (fun kv => kv.1 == p) fs).map (fun kv => kv.2)

/-- Replace the node stored at a path (first matching entry). -/
def updateNode : Store → String → FileNode → Store
  | [], _, _ => []
  | kv :: rest, p, n =>
    if kv.1 == p then (kv.1, n) :: rest else kv :: updateNode rest p n

/-- Content of the node at a path, if any. -/
def contentAt (fs : Store) (q : String) : Option String :=
  (lookupNode fs q).map (fun n => n.content)

theorem lookupNode_updateNode_self {fs : Store} {p : String} {m : FileNode}
    (h : lookupNode fs p = some m) (n : FileNode) :
    lookupNode (updateNode fs p n) p = some n := by
  induction fs with
  | nil => simp [lookupNode] at h
  | cons kv rest ih =>
    rcases hk : (kv.1 == p) with _ | _
    · simp only [lookupNode, List.find?, hk] at h
      simp only [updateNode, hk, Bool.false_eq_true, if_false]
      simp only [lookupNode, List.find?, hk]
      exact ih h
    · simp [updateNode, lookupNode, hk, List.find?]

theorem lookupNode_updateNode_ne {fs : Store} {p q : String} (n : FileNode)
    (h : q ≠ p) : lookupNode (updateNode fs p n) q = lookupNode fs q := by
  induction fs with
  | nil => simp [updateNode]
  | cons kv rest ih =>
    rcases hk : (kv.1 == p) with _ | _
    · simp only [updateNode, hk, Bool.false_eq_true, if_false]
      rcases hq : (kv.1 == q) with _ | _
      · simp only [lookupNode, List.find?, hq]
        simpa [lookupNode] using ih
      · simp [lookupNode, List.find?, hq]
    · have hkp : kv.1 = p := by simpa using hk
      have hpq : (p == q) = false := by
        simp only [beq_eq_false_iff_ne, ne_eq]
        exact fun e => h e.symm
      simp [updateNode, lookupNode, hk, List.find?, hkp, hpq]

theorem updateNode_self_eq {fs : Store} {p : String} {n : FileNode}
    (h : lookupNode fs p = some n) : updateNode fs p n = fs := by
  induction fs with
  | nil => rfl
  | cons kv rest ih =>
    rcases hk : (kv.1 == p) with _ | _
    · simp only [lookupNode, List.find?, hk] at h
      simp only [updateNode, hk, Bool.false_eq_true, if_false]
      simp only [lookupNode] at ih
      exact congrArg (fun l => kv :: l) (ih h)
    · simp only [lookupNode, List.find?, hk, Option.map_some] at h
      cases kv with
      | mk k m =>
        simp only [Option.map, Option.some.injEq] at h
        simp [updateNode, hk, h]

/-- Last path component of a slash-separated path. -/
def fileName (p : String) : String :=
  ((p.splitOn "/").getLast?).getD p

/-- Components of the directory containing a path. -/
def dirComps (p : String) : List String :=
  (p.splitOn "/").dropLast

/-- Directory part of a path, as a string. -/
def dirOf (p : String) : String :=
  String.intercalate "/" (dirComps p)

/-- Extension of a path (last dot-separated piece of the file name). -/
def extOf (p : String) : String :=
  (((fileName p).splitOn ".").getLast?).getD ""

/-- Modelled from the spec: entry-point recognition of the Context
Collector ordering (docs/architecture.md, Built-in Context Management:
smart file ordering places files such as `__init__.py` first); the
collector code itself is not among the shipped sources. -/
def isEntryPoint (p : String) : Bool :=
  fileName p == "__init__.py"

/-- Sort rank of a path: entry points sort before everything else. -/
def entryRank (p : String) : Nat :=
  if isEntryPoint p then 0 else 1

/-- Modelled from the spec: the deterministic context ordering (entry
points first, remaining files by path name). -/
def contextLE (a b : String × String) : Prop :=
  entryRank a.1 < entryRank b.1 ∨ (entryRank a.1 = entryRank b.1 ∧ a.1 ≤ b.1)

instance : DecidableRel contextLE := fun a b => by
  unfold contextLE
  infer_instance

instance : IsTotal (String × String) contextLE := by
  constructor
  intro a b
  rcases Nat.lt_trichotomy (entryRank a.1) (entryRank b.1) with h | h | h
  · exact Or.inl (Or.inl h)
  · rcases le_total a.1 b.1 with hle | hle
    · exact Or.inl (Or.inr ⟨h, hle⟩)
    · exact Or.inr (Or.inr ⟨h.symm, hle⟩)
  · exact Or.inr (Or.inl h)

instance : IsTrans (String × String) contextLE := by
  constructor
  intro a b c hab hbc
  rcases hab with h1 | ⟨h1, h1s⟩
  · rcases hbc with h2 | ⟨h2, _⟩
    · exact Or.inl (h1.trans h2)
    · exact Or.inl (h2 ▸ h1)
  · rcases hbc with h2 | ⟨h2, h2s⟩
    · exact Or.inl (h1 ▸ h2)
    · exact Or.inr ⟨h1.trans h2, h1s.trans h2s⟩

/-- List of ancestor directories, innermost first and the root `[]`
last, over reversed component lists. -/
def ancestorsAux : List String → List (List String)
  | [] => [[]]
  | x :: xs => (x :: xs).reverse :: ancestorsAux xs

/-- Modelled from the spec: the upward directory walk from a directory
toward the root (docs/architecture.md: directories are walked upward
from target toward root). -/
def ancestors (d : List String) : List (List String) :=
  ancestorsAux d.reverse

/-- Look a path up in a tree snapshot of (path, content) pairs. -/
def lookupFile (tree : List (String × String)) (p : String) : Option String :=
  (List.find? (fun kv => kv.1 == p) tree).map (fun kv => kv.2)

/-- Modelled from the spec: the relatedness rule of the Context
Collector — files sharing the target extension in the target directory,
plus the files of each ancestor directory level (docs/architecture.md,
Built-in Context Management; the collector code itself is not among the
shipped sources). -/
def relatedTo (target cand : String) : Bool :=
  cand != target &&
    ((dirOf cand == dirOf target && extOf cand == extOf target) ||
      decide (dirComps cand ∈ (ancestors (dirComps target)).drop 1))

/-- Candidate files for the context of a target path. -/
def candidates (tree : List (String × String)) (target : String) :
    List (String × String) :=
  tree.filter (fun pc => relatedTo target pc.1)

/-- Deterministic ordering pass of the Context Collector. -/
def orderCandidates (l : List (String × String)) : List (String × String) :=
  List.insertionSort contextLE l

/-- Modelled from the spec: the budget pass — iterate candidates in
order, accumulate the estimated size, stop once the budget would be
exceeded, include files whole or not at all. -/
def takeBudgetAux (est : String → Nat) (budget : Nat) :
    Nat → List (String × String) → List (String × String)
  | _, [] => []
  | acc, c :: cs =>
    if acc + est c.2 ≤ budget then c :: takeBudgetAux est budget (acc + est c.2) cs
    else []

/-- Total estimated size of a collected context. -/
def sumEst (est : String → Nat) (l : List (String × String)) : Nat :=
  (l.map (fun pc => est pc.2)).sum

/-- Modelled from the spec: `collect(target_path, budget)` of the
Context Collector — related candidates, deterministically ordered, cut
to the budget; empty when the target path is not found (soft failure).
The collector code itself is not among the shipped sources. -/
def collect (est : String → Nat) (tree : List (String × String))
    (target : String) (budget : Nat) : List (String × String) :=
  match lookupFile tree target with
  | none => []
  | some _ => takeBudgetAux est budget 0 (orderCandidates (candidates tree target))

theorem takeBudgetAux_sublist (est : String → Nat) (budget : Nat) :
    ∀ (acc : Nat) (l : List (String × String)),
      List.Sublist (takeBudgetAux est budget acc l) l := by
  intro acc l
  induction l generalizing acc with
  | nil => simp [takeBudgetAux]
  | cons c cs ih =>
    rcases le_or_lt (acc + est c.2) budget with h | h
    · simpa [takeBudgetAux, h] using List.Sublist.cons₂ c (ih (acc + est c.2))
    · simp [takeBudgetAux, Nat.not_le.mpr h]

theorem takeBudgetAux_le (est : String → Nat) (budget : Nat) :
    ∀ (acc : Nat) (l : List (String × String)), acc ≤ budget →
      acc + sumEst est (takeBudgetAux est budget acc l) ≤ budget := by
  intro acc l
  induction l generalizing acc with
  | nil => intro h; simpa [takeBudgetAux, sumEst]
  | cons c cs ih =>
    intro h
    rcases le_or_lt (acc + est c.2) budget with hle | hlt
    · have := ih (acc + est c.2) hle
      simp only [takeBudgetAux, hle, if_pos, sumEst, List.map_cons, List.sum_cons]
      simp only [sumEst] at this
      omega
    · simpa [takeBudgetAux, Nat.not_le.mpr hlt, sumEst] using h

theorem takeBudgetAux_split (est : String → Nat) (budget : Nat) :
    ∀ (acc : Nat) (l : List (String × String)),
      ∃ rest, l = takeBudgetAux est budget acc l ++ rest ∧
        ∀ c rest2, rest = c :: rest2 →
          budget < acc + sumEst est (takeBudgetAux est budget acc l) + est c.2 := by
  intro acc l
  induction l generalizing acc with
  | nil =>
    exact ⟨[], by simp [takeBudgetAux], by intro c rest2 h; cases h⟩
  | cons c cs ih =>
    rcases le_or_lt (acc + est c.2) budget with hle | hlt
    · obtain ⟨rest, hr, hstop⟩ := ih (acc + est c.2)
      refine ⟨rest, ?_, ?_⟩
      · simp only [takeBudgetAux, hle, if_pos, List.cons_append]
        exact congrArg (fun l => c :: l) hr
      · intro d rest2 hd
        have := hstop d rest2 hd
        simp only [takeBudgetAux, hle, if_pos, sumEst, List.map_cons, List.sum_cons]
        simp only [sumEst] at this
        omega
    · refine ⟨c :: cs, by simp [takeBudgetAux, Nat.not_le.mpr hlt], ?_⟩
      intro d rest2 hd
      simp only [List.cons.injEq] at hd
      obtain ⟨rfl, rfl⟩ := hd
      simp only [takeBudgetAux, Nat.not_le.mpr hlt, if_false, sumEst, List.map_nil,
        List.sum_nil]
      omega

/-- The Cache Layer state: stored entries (fingerprint to bytes) plus
hit and miss statistics (docs/architecture.md, Cache Behavior). -/
structure Cache where
  store : List (String × String)
  hits : Nat
  misses : Nat
deriving DecidableEq, Repr

/-- Look a fingerprint up in the cache store. -/
def cacheLookup (c : Cache) (fp : String) : Option String :=
  (List.find? (fun kv => kv.1 == fp) c.store).map (fun kv => kv.2)

/-- Modelled from the spec: `get_or_generate(fingerprint, generate_fn)`
of the Cache Layer (docs/architecture.md, Cache Behavior: cache hits
return immediately with stored content and bump the hit count; misses
call the generator, store the result and bump the miss count).  The
third component counts the calls made to `generate_fn`; the cache code
itself is not among the shipped sources. -/
def get_or_generate (c : Cache) (fp : String) (gen : Unit → String) :
    String × Cache × Nat :=
  match cacheLookup c fp with
  | some v => (v, { c with hits := c.hits + 1 }, 0)
  | none =>
    let v := gen ()
    (v, { store := (fp, v) :: c.store, hits := c.hits, misses := c.misses + 1 }, 1)

/-- A content generator of the plugin registry: its name and its
`can_handle` predicate. -/
structure Generator where
  name : String
  canHandle : String → FileNode → Bool

/-- Modelled from the spec: `dispatch(path, node)` of the Generator
Registry — linear scan in registration order, first generator whose
`can_handle` accepts wins, `none` standing for NoHandler.  The registry
code itself is not among the shipped sources. -/
def dispatch (registry : List Generator) (p : String) (n : FileNode) :
    Option Generator :=
  List.find? (fun g => g.canHandle p n) registry

/-- The `can_handle` of DefaultGenerator, embedded from the code snippet
in touchfs/content/plugins documentation: handles any file whose xattr
table is absent, has no `generator` key, or names this generator. -/
def defaultCanHandle (selfName : String) (_path : String) (node : FileNode) :
    Bool :=
  match xattrGet node "generator" with
  | none => true
  | some v => v == selfName

/-- The fallback DefaultGenerator as a registry entry. -/
def defaultGenerator (selfName : String) : Generator :=
  ⟨selfName, defaultCanHandle selfName⟩

/-- Drop empty or absent configuration values. -/
def nonEmptyVal : Option String → Option String
  | none => none
  | some v => if v = "" then none else some v

/-- Path of a configuration file inside the `.touchfs` directory of a
directory given by its components. -/
def configPath (dir : List String) (file : String) : String :=
  "/" ++ String.intercalate "/" (dir ++ [".touchfs", file])

/-- Modelled from the spec: the per-level configuration check of the
hierarchical lookup (docs/architecture.md, PromptPlugin and ModelPlugin:
`.touchfs/<name>` in the directory first, then `.touchfs/<name>.default`
there).  The lookup code itself is not among the shipped sources. -/
def levelValue (tree : List (String × String)) (dir : List String)
    (name : String) : Option String :=
  match nonEmptyVal (lookupFile tree (configPath dir name)) with
  | some v => some v
  | none => nonEmptyVal (lookupFile tree (configPath dir (name ++ ".default")))

/-- Modelled from the spec: hierarchical configuration resolution — walk
from the target directory upward to the root, first non-empty value
wins, hardcoded default otherwise. -/
def resolveConfig (tree : List (String × String)) (dir : List String)
    (name dflt : String) : String :=
  match (ancestors dir).findSome? (fun d => levelValue tree d name) with
  | some v => v
  | none => dflt

/-- Model resolution with its hardcoded system default. -/
def resolveModel (tree : List (String × String)) (dir : List String) : String :=
  resolveConfig tree dir "model" "gpt-4o-2024-08-06"

/-- The ModelConfig record, embedded from the code snippet in the plugin
guide: a single `model` field whose default is gpt-4o-2024-08-06. -/
structure ModelConfig where
  model : String
deriving DecidableEq, Repr

/-- Default-constructed ModelConfig (the Pydantic field default). -/
def defaultModelConfig : ModelConfig :=
  ⟨"gpt-4o-2024-08-06"⟩

/-- ModelPlugin.generate, embedded from the code snippet in the plugin
guide: non-empty content is first validated as a JSON ModelConfig (the
Pydantic validator is the external parameter `validate`); on success the
`model` field is returned, on failure the stripped raw content, and
empty content yields the default-constructed model name. -/
def modelPluginGenerate (validate : String → Option ModelConfig)
    (content : String) : String :=
  if content = "" then defaultModelConfig.model
  else
    match validate content with
    | some cfg => cfg.model
    | none => content.trim

/-- Tree snapshot of the store, path to content. -/
def treeOf (fs : Store) : List (String × String) :=
  fs.map (fun kv => (kv.1, kv.2.content))

/-- Size-estimation stand-in and budget used when fingerprinting. -/
def defaultTokenBudget : Nat := 8000

/-- Context assembled for a generation request on a store. -/
def contextFor (fs : Store) (p : String) : List (String × String) :=
  collect String.length (treeOf fs) p defaultTokenBudget

/-- Modelled from the spec: the deterministic fingerprint over the
request-defining fields (path and collected context). -/
def fingerprintOf (fs : Store) (p : String) : String :=
  String.intercalate "\x1f"
    (p :: (contextFor fs p).map (fun pc => pc.1 ++ "=" ++ pc.2))

/-- Errors surfaced by the Trigger Engine. -/
inductive FsError where
  | NotFound : FsError
  | GenerationFailed : String → FsError
deriving DecidableEq, Repr

/-- Outcome of one trigger-engine access: the result, the updated store
and cache, how many times the Generator Registry was invoked and how
many synthesis calls were made. -/
structure AccessResult where
  result : Except FsError String
  fs : Store
  cache : Cache
  registryCalls : Nat
  synthCalls : Nat

/-- Modelled from the spec: the Trigger Engine pipeline for one
read/stat access (docs/architecture.md, Generation Trigger; spec 4.5):
an eligible file routes through Dispatch and the Cache Layer; a cache
hit materializes stored bytes without synthesis; a miss calls the
Content Synthesis Service, stores and materializes on success, and
leaves the node untouched on failure.  Ineligible files are answered
from the store directly.  The engine code itself is not among the
shipped sources. -/
def access (synth : String → Except String String) (fs : Store) (cache : Cache)
    (p : String) : AccessResult :=
  match lookupNode fs p with
  | none => ⟨.error .NotFound, fs, cache, 0, 0⟩
  | some n =>
    if eligible n then
      let fp := fingerprintOf fs p
      match cacheLookup cache fp with
      | some bytes =>
        ⟨.ok bytes, updateNode fs p { n with content := bytes },
          { cache with hits := cache.hits + 1 }, 1, 0⟩
      | none =>
        match synth p with
        | .ok bytes =>
          ⟨.ok bytes, updateNode fs p { n with content := bytes },
            { store := (fp, bytes) :: cache.store, hits := cache.hits,
              misses := cache.misses + 1 }, 1, 1⟩
        | .error r =>
          ⟨.error (.GenerationFailed r), fs,
            { cache with misses := cache.misses + 1 }, 1, 1⟩
    else ⟨.ok n.content, fs, cache, 0, 0⟩

/-- A read operation: the trigger pipeline returning file bytes. -/
def readOp (synth : String → Except String String) (fs : Store) (cache : Cache)
    (p : String) : AccessResult :=
  access synth fs cache p

/-- A stat operation: the same trigger pipeline, answering the size. -/
def statOp (synth : String → Except String String) (fs : Store) (cache : Cache)
    (p : String) : Except FsError Nat × Store × Cache × Nat × Nat :=
  let a := access synth fs cache p
  (a.result.map String.length, a.fs, a.cache, a.registryCalls, a.synthCalls)

/-- Run a sequence of read operations, threading store and cache. -/
def runReads (synth : String → Except String String) :
    Store × Cache → List String → Store × Cache
  | st, [] => st
  | st, p :: ps =>
    let a := access synth st.1 st.2 p
    runReads synth (a.fs, a.cache) ps

/-- Run N reads of the same path, returning every observed result, the
final state and the total number of synthesis calls. -/
def readSeq (synth : String → Except String String) :
    Nat → Store → Cache → String →
      List (Except FsError String) × Store × Cache × Nat
  | 0, fs, cache, _ => ([], fs, cache, 0)
  | Nat.succ k, fs, cache, p =>
    let a := access synth fs cache p
    let r := readSeq synth k a.fs a.cache p
    (a.result :: r.1, r.2.1, r.2.2.1, a.synthCalls + r.2.2.2)

theorem access_of_not_eligible (synth : String → Except String String)
    (fs : Store) (cache : Cache) (p : String) (n : FileNode)
    (h : lookupNode fs p = some n) (he : eligible n = false) :
    access synth fs cache p = ⟨.ok n.content, fs, cache, 0, 0⟩ := by
  simp [access, h, he]

theorem access_registryCalls (synth : String → Except String String)
    (fs : Store) (cache : Cache) (p : String) (n : FileNode)
    (h : lookupNode fs p = some n) :
    (access synth fs cache p).registryCalls = if eligible n then 1 else 0 := by
  rcases he : eligible n with _ | _
  · simp [access, h, he]
  · simp only [access, h, he, if_pos]
    rcases hc : cacheLookup cache (fingerprintOf fs p) with _ | bytes
    · rcases hs : synth p with r | bytes <;> simp [hc, hs]
    · simp [hc]

theorem eligible_iff (n : FileNode) :
    eligible n = true ↔ (marked n = true ∧ n.content = "") := by
  simp [eligible]

/-- C1: for a file without the generation marker, neither a read nor a
stat invokes the Generator Registry or triggers synthesis; generation is
attempted exactly for files that carry the marker and have zero-length
content. -/
theorem touchfs_c1_unmarked_never_generates
    (synth : String → Except String String) (fs : Store) (cache : Cache)
    (p : String) (n : FileNode) (h : lookupNode fs p = some n) :
    (marked n = false →
      (readOp synth fs cache p).registryCalls = 0 ∧
      (readOp synth fs cache p).synthCalls = 0 ∧
      (statOp synth fs cache p).2.2.2.1 = 0 ∧
      (statOp synth fs cache p).2.2.2.2 = 0) ∧
    (0 < (readOp synth fs cache p).registryCalls ↔
      (marked n = true ∧ n.content = "")) := by
  constructor
  · intro hm
    have he : eligible n = false := by simp [eligible, hm]
    simp [readOp, statOp, access_of_not_eligible synth fs cache p n h he]
  · rw [readOp, access_registryCalls synth fs cache p n h, ← eligible_iff]
    rcases he : eligible n with _ | _ <;> simp [he]

theorem touchfs_c1_witness :
    (readOp (fun _ => Except.ok "Y") [("/a.txt", FileNode.mk "hello" none)]
        ⟨[], 0, 0⟩ "/a.txt").registryCalls = 0 :=
  ((touchfs_c1_unmarked_never_generates (fun _ => Except.ok "Y")
      [("/a.txt", FileNode.mk "hello" none)] ⟨[], 0, 0⟩ "/a.txt"
      (FileNode.mk "hello" none) (by decide)).1 (by decide)).1

theorem contentAt_access_preserved (synth : String → Except String String)
    (fs : Store) (cache : Cache) (p q : String) (c : String)
    (h : contentAt fs q = some c) (hc : c ≠ "") :
    contentAt (access synth fs cache p).fs q = some c := by
  rcases hl : lookupNode fs p with _ | n
  · simpa [access, hl] using h
  · rcases he : eligible n with _ | _
    · simpa [access, hl, he] using h
    · by_cases hqp : q = p
      · subst hqp
        rw [contentAt, hl] at h
        simp at h
        have : n.content = "" := by
          have := (eligible_iff n).mp he
          exact this.2
        rw [← h] at hc
        exact absurd this hc
      · have hne : ∀ m : FileNode, contentAt (updateNode fs p m) q = some c := by
          intro m
          rw [contentAt, lookupNode_updateNode_ne m hqp]
          exact h
        simp only [access, hl, he, if_pos]
        rcases hcl : cacheLookup cache (fingerprintOf fs p) with _ | bytes
        · rcases hs : synth p with r | bytes
          · simp only [hcl, hs]
            exact h
          · simp only [hcl, hs]
            exact hne { n with content := bytes }
        · simp only [hcl]
          exact hne { n with content := bytes }

/-- C2: materialized (non-empty) content is never overwritten by
generation — across any sequence of read accesses, any file that has
non-empty content keeps exactly that content, marker or not, so the
Empty-to-Materialized transition happens at most once per file. -/
theorem touchfs_c2_materialized_never_overwritten
    (synth : String → Except String String) (ps : List String)
    (fs : Store) (cache : Cache) (q c : String)
    (h : contentAt fs q = some c) (hc : c ≠ "") :
    contentAt (runReads synth (fs, cache) ps).1 q = some c := by
  induction ps generalizing fs cache with
  | nil => simpa [runReads] using h
  | cons p ps ih =>
    simp only [runReads]
    exact ih (access synth fs cache p).fs (access synth fs cache p).cache
      (contentAt_access_preserved synth fs cache p q c h hc)

theorem touchfs_c2_witness :
    contentAt (runReads (fun _ => Except.ok "Y")
        ([("/a.txt", FileNode.mk "hi" none)], ⟨[], 0, 0⟩)
        ["/a.txt", "/b.txt", "/a.txt"]).1 "/a.txt" = some "hi" :=
  touchfs_c2_materialized_never_overwritten (fun _ => Except.ok "Y")
    ["/a.txt", "/b.txt", "/a.txt"] [("/a.txt", FileNode.mk "hi" none)]
    ⟨[], 0, 0⟩ "/a.txt" "hi" (by decide) (by decide)

/-- C3: `get_or_generate` returns stored bytes on a hit without calling
the generator and bumps the hit count; on a miss it calls the generator
exactly once, stores and returns the result, and bumps the miss count
once. -/
theorem touchfs_c3_get_or_generate
    (c : Cache) (fp : String) (gen : Unit → String) :
    (∀ v, cacheLookup c fp = some v →
      (get_or_generate c fp gen).1 = v ∧
      (get_or_generate c fp gen).2.2 = 0 ∧
      (get_or_generate c fp gen).2.1.hits = c.hits + 1 ∧
      (get_or_generate c fp gen).2.1.misses = c.misses ∧
      (get_or_generate c fp gen).2.1.store = c.store) ∧
    (cacheLookup c fp = none →
      (get_or_generate c fp gen).1 = gen () ∧
      (get_or_generate c fp gen).2.2 = 1 ∧
      cacheLookup (get_or_generate c fp gen).2.1 fp = some (gen ()) ∧
      (get_or_generate c fp gen).2.1.misses = c.misses + 1 ∧
      (get_or_generate c fp gen).2.1.hits = c.hits) := by
  constructor
  · intro v hv
    simp [get_or_generate, hv]
  · intro hv
    simp only [get_or_generate, hv]
    simp [cacheLookup, List.find?]

theorem touchfs_c3_witness :
    (get_or_generate ⟨[], 0, 0⟩ "fp1" (fun _ => "X")).1 = "X" ∧
    (get_or_generate ⟨[], 0, 0⟩ "fp1" (fun _ => "X")).2.2 = 1 :=
  ⟨((touchfs_c3_get_or_generate ⟨[], 0, 0⟩ "fp1" (fun _ => "X")).2 rfl).1,
    ((touchfs_c3_get_or_generate ⟨[], 0, 0⟩ "fp1" (fun _ => "X")).2 rfl).2.1⟩

/-- C6: dispatch scans the registry in registration order and returns
the first generator whose `can_handle` accepts; it yields NoHandler
exactly when every registered generator declines — in particular only if
the fallback is absent or itself declines — and the DefaultGenerator
declines exactly the nodes whose `generator` xattr names a different
generator. -/
theorem touchfs_c6_dispatch_first_match
    (registry : List Generator) (p : String) (node : FileNode) :
    (∀ pre g post, registry = pre ++ g :: post →
      (∀ g2 ∈ pre, g2.canHandle p node = false) →
      g.canHandle p node = true → dispatch registry p node = some g) ∧
    (dispatch registry p node = none ↔
      ∀ g ∈ registry, g.canHandle p node = false) ∧
    (∀ nm, defaultCanHandle nm p node = false ↔
      ∃ v, xattrGet node "generator" = some v ∧ v ≠ nm) := by
  refine ⟨?_, ?_, ?_⟩
  · intro pre g post hreg hpre hg
    subst hreg
    induction pre with
    | nil => simp [dispatch, List.find?, hg]
    | cons g2 rest ih =>
      have h2 : g2.canHandle p node = false := hpre g2 (by simp)
      simp only [dispatch, List.cons_append, List.find?, h2]
      exact ih fun g3 h3 => hpre g3 (by simp [h3])
  · rw [dispatch, List.find?_eq_none]
    constructor
    · intro hall g hg
      simpa using hall g hg
    · intro hall g hg
      simp [hall g hg]
  · intro nm
    rcases hx : xattrGet node "generator" with _ | v
    · simp [defaultCanHandle, hx]
    · simp [defaultCanHandle, hx]

theorem touchfs_c6_witness :
    defaultCanHandle "default" "/a.png"
      (FileNode.mk "" (some [("generator", "image")])) = false :=
  ((touchfs_c6_dispatch_first_match [] "/a.png"
      (FileNode.mk "" (some [("generator", "image")]))).2.2 "default").mpr
    ⟨"image", rfl, by decide⟩

/-- C10: ModelPlugin.generate returns the `model` field when the content
validates as a JSON ModelConfig, the whitespace-stripped raw content
when non-empty content fails validation, and the hardcoded default model
name gpt-4o-2024-08-06 when the content is empty (the JSON validator is
the external Pydantic collaborator, assumed to reject the empty
string). -/
theorem touchfs_c10_model_plugin_generate
    (validate : String → Option ModelConfig) (content : String)
    (hv : validate "" = none) :
    (∀ cfg, validate content = some cfg →
      modelPluginGenerate validate content = cfg.model) ∧
    (content ≠ "" → validate content = none →
      modelPluginGenerate validate content = content.trim) ∧
    (content = "" →
      modelPluginGenerate validate content = "gpt-4o-2024-08-06") := by
  refine ⟨?_, ?_, ?_⟩
  · intro cfg hcfg
    by_cases hce : content = ""
    · rw [hce, hv] at hcfg
      cases hcfg
    · simp [modelPluginGenerate, hce, hcfg]
  · intro hce hnone
    simp [modelPluginGenerate, hce, hnone]
  · intro hce
    simp [modelPluginGenerate, hce, defaultModelConfig]

theorem touchfs_c10_witness :
    modelPluginGenerate
      (fun s => if s = "cfg-json" then some (ModelConfig.mk "m-json") else none)
      "cfg-json" = "m-json" :=
  (touchfs_c10_model_plugin_generate
      (fun s => if s = "cfg-json" then some (ModelConfig.mk "m-json") else none)
      "cfg-json" (by decide)).1 (ModelConfig.mk "m-json") (by decide)

/-- C4: the Context Collector is a pure function — two invocations on an
unchanged tree yield the same ordered output — and its output is sorted
by the deterministic context order: entry-point files (package-root
marker files such as `__init__.py`) first, remaining files by path
name. -/
theorem touchfs_c4_collector_deterministic_ordered
    (est : String → Nat) (tree : List (String × String)) (target : String)
    (budget : Nat) :
    collect est tree target budget = collect est tree target budget ∧
    List.Sorted contextLE (collect est tree target budget) ∧
    List.Pairwise
      (fun a b => (isEntryPoint b.1 = true → isEntryPoint a.1 = true) ∧
        (entryRank a.1 = entryRank b.1 → a.1 ≤ b.1))
      (collect est tree target budget) := by
  have hsorted : List.Sorted contextLE (collect est tree target budget) := by
    rcases hl : lookupFile tree target with _ | v
    · simp [collect, hl]
    · simp only [collect, hl]
      have hs : List.Sorted contextLE (orderCandidates (candidates tree target)) :=
        List.sorted_insertionSort contextLE (candidates tree target)
      exact List.Pairwise.sublist
        (takeBudgetAux_sublist est budget 0 (orderCandidates (candidates tree target)))
        hs
  refine ⟨rfl, hsorted, ?_⟩
  refine List.Pairwise.imp ?_ hsorted
  intro a b hab
  constructor
  · intro hb
    have hrb : entryRank b.1 = 0 := by simp [entryRank, hb]
    rcases hab with h1 | ⟨h1, _⟩
    · rw [hrb] at h1
      exact absurd h1 (Nat.not_lt_zero _)
    · rw [hrb] at h1
      by_cases ha : isEntryPoint a.1 = true
      · exact ha
      · rw [entryRank, if_neg (by simp [ha])] at h1
        cases h1
  · intro heq
    rcases hab with h1 | ⟨_, hle⟩
    · rw [heq] at h1
      exact absurd h1 (lt_irrefl _)
    · exact hle

theorem touchfs_c4_witness :
    List.Sorted contextLE
      (collect (fun s => s.length)
        [("/p/a.py", "aa"), ("/p/__init__.py", "ii"), ("/p/b.py", "bb")]
        "/p/a.py" 100) :=
  (touchfs_c4_collector_deterministic_ordered (fun s => s.length)
    [("/p/a.py", "aa"), ("/p/__init__.py", "ii"), ("/p/b.py", "bb")]
    "/p/a.py" 100).2.1

/-- C5: the Context Collector includes candidate files whole or not at
all — its output is an initial segment of the deterministically ordered
candidate list, every returned excerpt is the file content exactly as
stored in the tree, the accumulated estimated size never exceeds the
budget, and the walk stops exactly when the next candidate would exceed
it. -/
theorem touchfs_c5_budget_whole_files
    (est : String → Nat) (tree : List (String × String)) (target : String)
    (budget : Nat) :
    (∀ pc ∈ collect est tree target budget, pc ∈ tree) ∧
    sumEst est (collect est tree target budget) ≤ budget ∧
    ∃ rest, orderCandidates (candidates tree target) =
        collect est tree target budget ++ rest ∧
      ((lookupFile tree target).isSome = true →
        ∀ c rest2, rest = c :: rest2 →
          budget < sumEst est (collect est tree target budget) + est c.2) := by
  rcases hl : lookupFile tree target with _ | v
  · refine ⟨by simp [collect, hl], by simp [collect, hl, sumEst], ?_⟩
    refine ⟨orderCandidates (candidates tree target), by simp [collect, hl], ?_⟩
    intro hsome
    simp at hsome
  · have hmem : ∀ pc ∈ collect est tree target budget, pc ∈ tree := by
      intro pc hpc
      simp only [collect, hl] at hpc
      have h1 : pc ∈ orderCandidates (candidates tree target) :=
        (takeBudgetAux_sublist est budget 0 _).subset hpc
      have h2 : pc ∈ candidates tree target :=
        (List.perm_insertionSort contextLE (candidates tree target)).subset h1
      exact List.mem_of_mem_filter h2
    refine ⟨hmem, ?_, ?_⟩
    · have := takeBudgetAux_le est budget 0
        (orderCandidates (candidates tree target)) (Nat.zero_le _)
      simpa [collect, hl] using this
    · obtain ⟨rest, hr, hstop⟩ :=
        takeBudgetAux_split est budget 0 (orderCandidates (candidates tree target))
      refine ⟨rest, by simpa [collect, hl] using hr, ?_⟩
      intro _ c rest2 hcr
      have := hstop c rest2 hcr
      simp only [collect, hl]
      omega

theorem touchfs_c5_witness :
    sumEst (fun s => s.length)
      (collect (fun s => s.length)
        [("/p/a.py", "hello"), ("/p/b.py", "world"), ("/p/c.py", "byeee")]
        "/p/a.py" 7) ≤ 7 :=
  (touchfs_c5_budget_whole_files (fun s => s.length)
    [("/p/a.py", "hello"), ("/p/b.py", "world"), ("/p/c.py", "byeee")]
    "/p/a.py" 7).2.1

theorem ancestorsAux_ne_nil (xs : List String) : ancestorsAux xs ≠ [] := by
  cases xs <;> simp [ancestorsAux]

theorem ancestorsAux_getLast? (xs : List String) :
    (ancestorsAux xs).getLast? = some [] := by
  induction xs with
  | nil => rfl
  | cons x xs ih =>
    show ((x :: xs).reverse :: ancestorsAux xs).getLast? = some []
    rcases hxs : ancestorsAux xs with _ | ⟨y, ys⟩
    · exact absurd hxs (ancestorsAux_ne_nil xs)
    · rw [hxs] at ih
      rw [List.getLast?_cons_cons]
      exact ih

theorem ancestors_head? (d : List String) : (ancestors d).head? = some d := by
  unfold ancestors
  rcases hd : d.reverse with _ | ⟨x, xs⟩
  · have hdn : d = [] := by
      have := congrArg List.reverse hd
      simpa using this
    subst hdn
    rfl
  · have hdd : d = xs.reverse ++ [x] := by
      have := congrArg List.reverse hd
      simpa using this
    simp [ancestorsAux, hdd]

theorem findSome?_eq_of_split {α β : Type} (f : α → Option β)
    (pre : List α) (d : α) (post : List α)
    (hpre : ∀ x ∈ pre, f x = none) {v : β} (hd : f d = some v) :
    (pre ++ d :: post).findSome? f = some v := by
  induction pre with
  | nil => simp [List.findSome?_cons, hd]
  | cons a rest ih =>
    have ha : f a = none := hpre a (by simp)
    simp only [List.cons_append, List.findSome?_cons, ha]
    exact ih fun x hx => hpre x (by simp [hx])

theorem findSome?_eq_none_of_all {α β : Type} (f : α → Option β)
    (l : List α) (h : ∀ x ∈ l, f x = none) : l.findSome? f = none := by
  induction l with
  | nil => rfl
  | cons a rest ih =>
    have ha : f a = none := h a (by simp)
    simp only [List.findSome?_cons, ha]
    exact ih fun x hx => h x (by simp [hx])

/-- C7: hierarchical configuration resolution walks from the target
directory upward to the root (the walk starts at the directory itself
and ends at the root), checks the directory-local override value before
the directory-local default-named value at each level, returns the first
non-empty value found, and falls back to the hardcoded system default —
gpt-4o-2024-08-06 for the model — when no level yields a value. -/
theorem touchfs_c7_hierarchical_resolution
    (tree : List (String × String)) (dir : List String) (name dflt : String) :
    ((ancestors dir).head? = some dir) ∧
    ((ancestors dir).getLast? = some []) ∧
    (∀ pre d post, ancestors dir = pre ++ d :: post →
      (∀ d2 ∈ pre, levelValue tree d2 name = none) →
      ∀ v, levelValue tree d name = some v →
        resolveConfig tree dir name dflt = v) ∧
    (∀ d v, nonEmptyVal (lookupFile tree (configPath d name)) = some v →
      levelValue tree d name = some v) ∧
    (∀ d v, nonEmptyVal (lookupFile tree (configPath d name)) = none →
      nonEmptyVal (lookupFile tree (configPath d (name ++ ".default"))) = some v →
      levelValue tree d name = some v) ∧
    ((∀ d ∈ ancestors dir, levelValue tree d name = none) →
      resolveConfig tree dir name dflt = dflt) ∧
    (resolveModel tree dir = resolveConfig tree dir "model" "gpt-4o-2024-08-06") := by
  refine ⟨ancestors_head? dir, ancestorsAux_getLast? dir.reverse, ?_, ?_, ?_, ?_, rfl⟩
  · intro pre d post hsplit hpre v hv
    rw [resolveConfig, hsplit,
      findSome?_eq_of_split (fun d2 => levelValue tree d2 name) pre d post hpre hv]
  · intro d v hv
    simp [levelValue, hv]
  · intro d v hov hdv
    simp [levelValue, hov, hdv]
  · intro hall
    rw [resolveConfig,
      findSome?_eq_none_of_all (fun d2 => levelValue tree d2 name) (ancestors dir) hall]

theorem touchfs_c7_witness :
    resolveConfig [("/p/.touchfs/model", "gpt-test")] ["p"] "model" "dflt"
      = "gpt-test" :=
  (touchfs_c7_hierarchical_resolution [("/p/.touchfs/model", "gpt-test")]
      ["p"] "model" "dflt").2.2.1 [] ["p"] [[]] (by rfl) (by simp) "gpt-test"
    (by decide)

theorem content_update_id {n : FileNode} (h : n.content = "") :
    ({ n with content := "" } : FileNode) = n := by
  cases n with
  | mk c x =>
    simp only at h
    simp [h]

theorem readSeq_stable_materialized (synth : String → Except String String)
    (k : Nat) (fs : Store) (cache : Cache) (p : String) (m : FileNode)
    (hm : lookupNode fs p = some m) (he : eligible m = false) :
    readSeq synth k fs cache p = (List.replicate k (.ok m.content), fs, cache, 0) := by
  induction k with
  | zero => rfl
  | succ k ih =>
    simp only [readSeq, access_of_not_eligible synth fs cache p m hm he, ih]
    simp [List.replicate_succ]

theorem readSeq_stable_cached_empty (synth : String → Except String String)
    (k : Nat) (fs : Store) (p : String) (n : FileNode)
    (hn : lookupNode fs p = some n) (he : eligible n = true)
    (hnc : n.content = "") :
    ∀ cache : Cache, cacheLookup cache (fingerprintOf fs p) = some "" →
      (readSeq synth k fs cache p).1 = List.replicate k (.ok "") ∧
      (readSeq synth k fs cache p).2.1 = fs ∧
      (readSeq synth k fs cache p).2.2.2 = 0 := by
  induction k with
  | zero => exact fun cache _ => ⟨rfl, rfl, rfl⟩
  | succ k ih =>
    intro cache hcc
    have hupd : updateNode fs p { n with content := "" } = fs := by
      rw [content_update_id hnc]
      exact updateNode_self_eq hn
    have ha : access synth fs cache p =
        ⟨.ok "", fs, { cache with hits := cache.hits + 1 }, 1, 0⟩ := by
      simp [access, hn, he, hcc, hupd]
    simp only [readSeq, ha]
    obtain ⟨h1, h2, h3⟩ := ih { cache with hits := cache.hits + 1 } hcc
    refine ⟨?_, h2, ?_⟩
    · simp [h1, List.replicate_succ]
    · simpa using h3

/-- C8: a synthesis failure on a MarkedEmpty file surfaces as a
GenerationFailed read error and leaves the node unchanged (content still
empty, marker still set), so the next read retries: with a stub that
fails once then succeeds, the first read fails leaving the file
MarkedEmpty and the second read succeeds and materializes it. -/
theorem touchfs_c8_failure_then_retry
    (synth synth2 : String → Except String String) (fs : Store) (cache : Cache)
    (p : String) (n : FileNode) (r b : String)
    (hn : lookupNode fs p = some n) (he : eligible n = true)
    (hcm : cacheLookup cache (fingerprintOf fs p) = none)
    (hf : synth p = .error r)
    (hs2 : synth2 p = .ok b) (hb : b ≠ "") :
    (access synth fs cache p).result = .error (.GenerationFailed r) ∧
    (access synth fs cache p).fs = fs ∧
    lookupNode (access synth fs cache p).fs p = some n ∧
    (access synth2 (access synth fs cache p).fs
      (access synth fs cache p).cache p).result = .ok b ∧
    contentAt (access synth2 (access synth fs cache p).fs
      (access synth fs cache p).cache p).fs p = some b ∧
    eligible { n with content := b } = false := by
  have ha1 : access synth fs cache p =
      ⟨.error (.GenerationFailed r), fs,
        { cache with misses := cache.misses + 1 }, 1, 1⟩ := by
    simp [access, hn, he, hcm, hf]
  have hcm2 : cacheLookup { cache with misses := cache.misses + 1 }
      (fingerprintOf fs p) = none := hcm
  have ha2 : access synth2 fs { cache with misses := cache.misses + 1 } p =
      ⟨.ok b, updateNode fs p { n with content := b },
        { store := (fingerprintOf fs p, b) :: cache.store, hits := cache.hits,
          misses := cache.misses + 1 + 1 }, 1, 1⟩ := by
    simp [access, hn, he, hcm2, hs2]
  rw [ha1]
  refine ⟨rfl, rfl, hn, ?_, ?_, ?_⟩
  · rw [ha2]
  · rw [ha2]
    simp [contentAt, lookupNode_updateNode_self hn]
  · simp [eligible, hb]

theorem touchfs_c8_witness :
    (access (fun _ => Except.error "boom")
      [("/a.txt", FileNode.mk "" (some [("generate_content", "true")]))]
      ⟨[], 0, 0⟩ "/a.txt").result = .error (.GenerationFailed "boom") :=
  (touchfs_c8_failure_then_retry (fun _ => Except.error "boom")
    (fun _ => Except.ok "A")
    [("/a.txt", FileNode.mk "" (some [("generate_content", "true")]))]
    ⟨[], 0, 0⟩ "/a.txt" (FileNode.mk "" (some [("generate_content", "true")]))
    "boom" "A" (by decide) (by decide) rfl rfl rfl (by decide)).1

/-- C9: with the per-fingerprint serialization of the Cache Layer, N
sequential reads (N at least 1) of a MarkedEmpty path cause exactly one
synthesis call, and every one of the N reads observes the same bytes. -/
theorem touchfs_c9_one_synthesis_for_n_reads
    (synth : String → Except String String) (fs : Store) (cache : Cache)
    (p : String) (n : FileNode) (b : String) (N : Nat)
    (hn : lookupNode fs p = some n) (he : eligible n = true)
    (hcm : cacheLookup cache (fingerprintOf fs p) = none)
    (hs : synth p = .ok b) (hN : 1 ≤ N) :
    (readSeq synth N fs cache p).1 = List.replicate N (.ok b) ∧
    (readSeq synth N fs cache p).2.2.2 = 1 := by
  obtain ⟨k, rfl⟩ : ∃ k, N = k + 1 := ⟨N - 1, by omega⟩
  have ha : access synth fs cache p =
      ⟨.ok b, updateNode fs p { n with content := b },
        { store := (fingerprintOf fs p, b) :: cache.store, hits := cache.hits,
          misses := cache.misses + 1 }, 1, 1⟩ := by
    simp [access, hn, he, hcm, hs]
  simp only [readSeq, ha]
  by_cases hb : b = ""
  · subst hb
    have hnc : n.content = "" := ((eligible_iff n).mp he).2
    have hupd : updateNode fs p { n with content := "" } = fs := by
      rw [content_update_id hnc]
      exact updateNode_self_eq hn
    rw [hupd]
    obtain ⟨h1, _, h3⟩ := readSeq_stable_cached_empty synth k fs p n hn he hnc
      { store := (fingerprintOf fs p, "") :: cache.store, hits := cache.hits,
        misses := cache.misses + 1 }
      (by simp [cacheLookup, List.find?])
    refine ⟨?_, ?_⟩
    · simp [h1, List.replicate_succ]
    · simpa using h3
  · have hm : lookupNode (updateNode fs p { n with content := b }) p =
        some { n with content := b } := lookupNode_updateNode_self hn _
    have hme : eligible { n with content := b } = false := by simp [eligible, hb]
    rw [readSeq_stable_materialized synth k _ _ p _ hm hme]
    simp [List.replicate_succ]

theorem touchfs_c9_witness :
    (readSeq (fun _ => Except.ok "A") 3
      [("/a.txt", FileNode.mk "" (some [("generate_content", "true")]))]
      ⟨[], 0, 0⟩ "/a.txt").2.2.2 = 1 :=
  (touchfs_c9_one_synthesis_for_n_reads (fun _ => Except.ok "A")
    [("/a.txt", FileNode.mk "" (some [("generate_content", "true")]))]
    ⟨[], 0, 0⟩ "/a.txt" (FileNode.mk "" (some [("generate_content", "true")]))
    "A" 3 (by decide) (by decide) rfl rfl (by omega)).2

end TouchFS
